import Mathlib

/-!
Verification of the range algebra, speed-segment resolver, atempo chain
decomposition, sprite-sheet partition arithmetic and boundary validators of
the video editor backend (`backend/app/main.py`, `backend/app/video_tools.py`,
`backend/app/validators.py`, `backend/app/services/media_service.py`).

Times and rates are embedded as rationals (`ℚ`); the Python code computes with
floats, and every concrete value appearing in the claims is dyadic, so the
rational embedding is exact on them.  Lists of `(start, end)` pairs embed the
Python lists of 2-tuples, and `(start, end, rate)` triples embed the 3-tuples.
-/

namespace VideoEditor

/-- A time range `(start, end)` in seconds. -/
abbrev Range : Type := ℚ × ℚ

/-- A speed segment `(start, end, rate)`. -/
abbrev Segment : Type := ℚ × ℚ × ℚ

/-- Ordering on ranges by start time: the sort key `lambda x: x[0]` used by
`_merge_ranges` in `backend/app/main.py`. -/
def startLE (a b : Range) : Prop := a.1 ≤ b.1

instance : DecidableRel startLE := fun a b => inferInstanceAs (Decidable (a.1 ≤ b.1))

instance : IsTotal Range startLE := ⟨fun a b => le_total a.1 b.1⟩

instance : IsTrans Range startLE := ⟨fun _ _ _ hab hbc => le_trans hab hbc⟩

/-- Ordering on speed triples by start time: the sort key `lambda x: x[0]`
used by `_build_speed_segments` in `backend/app/main.py`. -/
def segStartLE (a b : Segment) : Prop := a.1 ≤ b.1

instance : DecidableRel segStartLE := fun a b => inferInstanceAs (Decidable (a.1 ≤ b.1))

instance : IsTotal Segment segStartLE := ⟨fun a b => le_total a.1 b.1⟩

instance : IsTrans Segment segStartLE := ⟨fun _ _ _ hab hbc => le_trans hab hbc⟩

/-- The merging scan of `_merge_ranges` (`backend/app/main.py`): the
accumulator `merged` is represented by its last element `cur` (the only one
still mutable) plus the already-emitted prefix, which is produced on the way
out.  `if start_sec <= last_end: merged[-1] = (last_start, max(last_end,
end_sec)) else merged.append(...)`. -/
def scanMerge : Range → List Range → List Range
  | cur, [] => [cur]
  | cur, r :: rest =>
    if r.1 ≤ cur.2 then scanMerge (cur.1, max cur.2 r.2) rest
    else cur :: scanMerge r rest

/-- `_merge_ranges` (`backend/app/main.py`): sort by start, then scan,
merging a range into the last accumulated one when its start is at or before
the accumulated end.  Empty input returns `[]`. -/
def mergeRanges (rs : List Range) : List Range :=
  match List.insertionSort startLE rs with
  | [] => []
  | r :: rest => scanMerge r rest

/-- The keep-range (complement) cursor scan shared by `_build_speed_segments`
(`backend/app/main.py`) and `remove_segments_and_stitch`
(`backend/app/video_tools.py`):
`for (s, e) in trims: if s > cursor: emit (cursor, s); cursor = max(cursor, e)`
and finally `if cursor < duration: emit (cursor, duration)`. -/
def complementScan (duration : ℚ) : ℚ → List Range → List Range
  | cursor, [] => if cursor < duration then [(cursor, duration)] else []
  | cursor, r :: rest =>
    (if cursor < r.1 then [(cursor, r.1)] else []) ++
      complementScan duration (max cursor r.2) rest

/-- The keep ranges computed at the top of `_build_speed_segments`
(`backend/app/main.py`): the cursor scan over `trim_ranges`, overridden by
`keep_ranges = [(0.0, duration_sec)]` when `trim_ranges` is empty. -/
def keepRangesOf (duration : ℚ) (trims : List Range) : List Range :=
  if trims = [] then [(0, duration)] else complementScan duration 0 trims

/-- The overlap check of `_build_speed_segments` over the sorted speed list:
`for i in 1..: if current[0] < prev[1]: raise`.  True iff some consecutive
pair of the (sorted) list has the later start strictly before the earlier
end. -/
def hasOverlap : List Segment → Bool
  | a :: b :: rest => decide (b.1 < a.2.1) || hasOverlap (b :: rest)
  | _ => false

/-- `sorted(speed_ranges, key=lambda x: x[0])` in `_build_speed_segments`. -/
def sortSpeeds (speeds : List Segment) : List Segment :=
  List.insertionSort segStartLE speeds

/-- The inner loop of `_build_speed_segments` for one keep range
`(ks, ke)`, with running `cursor`: skip speed ranges ending at or before the
keep start (`continue`), stop at the first starting at or after the keep end
(`break`, then emit the trailing rate-1 filler), otherwise clip the overlap,
emit a rate-1 filler for `[cursor, overlapStart)` when non-empty, emit the
rate segment and advance the cursor. -/
def resolveKeep (ks ke : ℚ) : ℚ → List Segment → List Segment
  | cursor, [] => if cursor < ke then [(cursor, ke, 1)] else []
  | cursor, sr :: rest =>
    if sr.2.1 ≤ ks then resolveKeep ks ke cursor rest
    else if ke ≤ sr.1 then (if cursor < ke then [(cursor, ke, 1)] else [])
    else
      let os := max ks sr.1
      let oe := min ke sr.2.1
      if oe ≤ os then resolveKeep ks ke cursor rest
      else (if cursor < os then [(cursor, os, 1)] else []) ++
        (os, oe, sr.2.2) :: resolveKeep ks ke oe rest

/-- The full `segments` list built by the nested loop of
`_build_speed_segments`, before the final length filter: the keep ranges in
order, each resolved against the sorted speed ranges. -/
def rawSegmentsOf (keeps : List Range) (sortedSpeeds : List Segment) : List Segment :=
  match keeps with
  | [] => []
  | k :: rest => resolveKeep k.1 k.2 k.1 sortedSpeeds ++ rawSegmentsOf rest sortedSpeeds

/-- The emitted (pre-filter) segment list of `_build_speed_segments` for the
given duration, trim ranges and (unsorted) speed ranges. -/
def rawSegments (duration : ℚ) (trims : List Range) (speeds : List Segment) : List Segment :=
  rawSegmentsOf (keepRangesOf duration trims) (sortSpeeds speeds)

/-- The final length filter of `_build_speed_segments`:
`[(s, e, sp) for s, e, sp in segments if e - s > 0.01]` keeps a segment iff
its length is strictly greater than `0.01`. -/
def segLong (s : Segment) : Bool := decide ((1 : ℚ)/100 < s.2.1 - s.1)

/-- `_build_speed_segments` (`backend/app/main.py`).  The `HTTPException`
raised on overlapping speed ranges is embedded as `Except.error` with the
exception's detail string; every `return` is an `Except.ok`. -/
def buildSpeedSegments (duration : ℚ) (trims : List Range) (speeds : List Segment) :
    Except String (List Segment) :=
  let keeps := keepRangesOf duration trims
  if keeps = [] then Except.ok []
  else if speeds = [] then Except.ok (keeps.map (fun k => (k.1, k.2, 1)))
  else
    let sorted := sortSpeeds speeds
    if hasOverlap sorted then Except.error "Overlapping speed ranges are not supported."
    else Except.ok ((rawSegmentsOf keeps sorted).filter segLong)

/-- A point `x` lies in (the union of) a list of half-open ranges
`[start, end)`.  The half-open reading is the one under which the spec's
"covers `[0, duration]` exactly once per point" is meaningful: the code's
ranges meet at shared endpoints (e.g. keep `[0,1)` and removed `[1,5)`). -/
def inRanges (rs : List Range) (x : ℚ) : Prop := ∃ r ∈ rs, r.1 ≤ x ∧ x < r.2

instance (rs : List Range) (x : ℚ) : Decidable (inRanges rs x) :=
  inferInstanceAs (Decidable (∃ r ∈ rs, _ ∧ _))

/-- Termination helper: halving a rational above `2` strictly decreases its
ceiling. -/
theorem ceil_half_lt {x : ℚ} (hx : 2 < x) : ⌈x / 2⌉₊ < ⌈x⌉₊ := by
  have hle : x ≤ (⌈x⌉₊ : ℚ) := Nat.le_ceil x
  have h3 : 2 < ⌈x⌉₊ := by exact_mod_cast lt_of_lt_of_le hx hle
  have h1 : 1 ≤ ⌈x⌉₊ := by omega
  have hsub : x / 2 ≤ ((⌈x⌉₊ - 1 : ℕ) : ℚ) := by
    have hcast : ((⌈x⌉₊ - 1 : ℕ) : ℚ) = (⌈x⌉₊ : ℚ) - 1 := by
      push_cast [Nat.cast_sub h1]
      ring
    rw [hcast]
    linarith
  have := Nat.ceil_le.mpr hsub
  omega

/-- First loop of `_build_atempo_chain` (`backend/app/video_tools.py`):
`while remaining > 2.0: factors.append(2.0); remaining /= 2.0`.
Returns the emitted factors and the final value of `remaining`. -/
def atempoHigh (q : ℚ) : List ℚ × ℚ :=
  if h : 2 < q then
    (2 :: (atempoHigh (q / 2)).1, (atempoHigh (q / 2)).2)
  else ([], q)
termination_by ⌈q⌉₊
decreasing_by exact ceil_half_lt h

/-- Second loop of `_build_atempo_chain`:
`while remaining < 0.5: factors.append(0.5); remaining /= 0.5`.
The source loop does not terminate for `remaining ≤ 0`; the guard `0 < q`
added here makes the function total and agrees with the source on every
reachable input (`_build_atempo_chain` is only called with a positive speed:
the endpoint rejects `speed ≤ 0` and `render_segments_with_speed` clamps the
rate to at least `0.25`). -/
def atempoLow (q : ℚ) : List ℚ × ℚ :=
  if h : 0 < q ∧ q < 1/2 then
    ((1/2 : ℚ) :: (atempoLow (q / (1/2))).1, (atempoLow (q / (1/2))).2)
  else ([], q)
termination_by ⌈q⁻¹⌉₊
decreasing_by
  have hq : 0 < q := h.1
  have hinv : 2 < q⁻¹ := by
    have h2 : ((1:ℚ)/2)⁻¹ < q⁻¹ := inv_strictAnti₀ hq h.2
    simpa using h2
  have hrw : (q / (1/2) : ℚ)⁻¹ = q⁻¹ / 2 := by
    rw [inv_div]
    field_simp
    ring
  rw [hrw]
  exact ceil_half_lt hinv

/-- The factor list of `_build_atempo_chain`: both loops followed by
`factors.append(remaining)`. -/
def buildAtempoFactors (speed : ℚ) : List ℚ :=
  (atempoHigh speed).1 ++ (atempoLow (atempoHigh speed).2).1 ++
    [(atempoLow (atempoHigh speed).2).2]

/-- The per-stage clamp applied when the chain string is rendered:
`max(0.5, min(2.0, f))`. -/
def clampStage (f : ℚ) : ℚ := max (1/2) (min 2 f)

/-- The clamped factors that actually appear in the rendered
`atempo=...` chain string. -/
def clampedAtempoFactors (speed : ℚ) : List ℚ :=
  (buildAtempoFactors speed).map clampStage

/-- The rate clamp of `render_segments_with_speed`
(`backend/app/video_tools.py`): `speed_value = max(0.25, float(speed))`. -/
def effectiveRate (speed : ℚ) : ℚ := max (1/4) speed

/-- The numeric parameters of the per-segment ffmpeg filters built by
`render_segments_with_speed`: the video timestamp divisor of
`setpts=PTS/{speed_value}` and the audio factor list of
`_build_atempo_chain(speed_value)`, both computed from the clamped
`speed_value`. -/
def renderSegmentParams (seg : Segment) : ℚ × List ℚ :=
  (effectiveRate seg.2.2, clampedAtempoFactors (effectiveRate seg.2.2))

/-- The frame/sheet arithmetic of `generate_sprite_sheets`
(`backend/app/video_tools.py`), after the parameter clamps
`interval_sec = max(0.1, interval_sec)`, `columns = max(1, columns)`,
`rows = max(1, rows)`:
`total_frames = max(1, floor(duration / interval) + 1)`,
`frames_per_sheet = columns * rows`,
`sheet_count = max(1, ceil(total_frames / frames_per_sheet))`.
Returns `(totalFrames, framesPerSheet, sheetCount)`. -/
def spritePartition (duration interval : ℚ) (columns rows : ℤ) : ℤ × ℤ × ℤ :=
  let i := max (1/10) interval
  let c := max 1 columns
  let r := max 1 rows
  let totalFrames := max 1 (⌊duration / i⌋ + 1)
  let framesPerSheet := c * r
  let sheetCount := max 1 ⌈(totalFrames : ℚ) / (framesPerSheet : ℚ)⌉
  (totalFrames, framesPerSheet, sheetCount)

/-- `validate_sprite_params` (`backend/app/services/media_service.py`). -/
def validate_sprite_params (interval : ℚ) (columns rows : ℤ) : Except String Unit :=
  if interval ≤ 0 then Except.error "interval_sec must be greater than 0."
  else if columns ≤ 0 ∨ rows ≤ 0 then
    Except.error "columns and rows must be greater than 0."
  else Except.ok ()

/-- `validate_trim` (`backend/app/validators.py`): rejects negative
endpoints, `start >= end`, and `end > duration`. -/
def validate_trim (start_sec end_sec duration_sec : ℚ) : Except String Unit :=
  if start_sec < 0 ∨ end_sec < 0 then
    Except.error "Start and end must be non-negative."
  else if end_sec ≤ start_sec then
    Except.error "End must be greater than start."
  else if duration_sec < end_sec then
    Except.error "End exceeds duration."
  else Except.ok ()

/-- The per-item trim-range processing of `export_from_file`
(`backend/app/main.py`): `start_sec = min(item.start, item.end)`,
`end_sec = max(item.start, item.end)`, then `validate_trim`. -/
def processTrimRange (a b duration : ℚ) : Except String Range :=
  (validate_trim (min a b) (max a b) duration).map fun _ => (min a b, max a b)

/-- The per-item speed-range processing of `export_from_file`:
min/max normalization, `validate_trim`, then rejection of
`speed_value <= 0`. -/
def processSpeedRange (a b speed duration : ℚ) : Except String Segment :=
  (validate_trim (min a b) (max a b) duration).bind fun _ =>
    if speed ≤ 0 then Except.error "Speed must be greater than 0."
    else Except.ok (min a b, max a b, speed)

/-- The entire-timeline-removal guard of `export_from_file`
(`backend/app/main.py`): the `HTTPException` "Cannot remove the entire video
range." is raised iff
`merged_ranges and merged_ranges[0][0] <= 0 and merged_ranges[-1][1] >= duration_sec`
and `len(merged_ranges) == 1 and merged_ranges[0][0] <= 0 and
merged_ranges[0][1] >= duration_sec`. -/
def entireRemovalRejected (duration : ℚ) (merged : List Range) : Bool :=
  (!merged.isEmpty
    && decide (merged.headI.1 ≤ 0)
    && decide (duration ≤ merged.getLastI.2))
  && (decide (merged.length = 1)
    && decide (merged.headI.1 ≤ 0)
    && decide (duration ≤ merged.headI.2))

/-! ### Generic facts about `inRanges` -/

theorem inRanges_nil (x : ℚ) : ¬ inRanges [] x := by
  simp [inRanges]

theorem inRanges_cons {r : Range} {l : List Range} {x : ℚ} :
    inRanges (r :: l) x ↔ (r.1 ≤ x ∧ x < r.2) ∨ inRanges l x := by
  simp [inRanges]

theorem inRanges_append {l₁ l₂ : List Range} {x : ℚ} :
    inRanges (l₁ ++ l₂) x ↔ inRanges l₁ x ∨ inRanges l₂ x := by
  simp [inRanges, or_and_right, exists_or]

theorem inRanges_perm {l l' : List Range} (h : l.Perm l') (x : ℚ) :
    inRanges l x ↔ inRanges l' x := by
  simp [inRanges, h.mem_iff]

/-! ### Facts about `scanMerge` and `mergeRanges` -/

/-- The scan never discards the accumulated start: its output begins with a
range starting at `cur.1` whose end is at least `cur.2`. -/
theorem scanMerge_head : ∀ (pending : List Range) (cur : Range),
    ∃ e tl, scanMerge cur pending = (cur.1, e) :: tl ∧ cur.2 ≤ e := by
  intro pending
  induction pending with
  | nil =>
    intro cur
    exact ⟨cur.2, [], by simp [scanMerge], le_refl _⟩
  | cons r rest ih =>
    intro cur
    by_cases hc : r.1 ≤ cur.2
    · obtain ⟨e, tl, heq, hle⟩ := ih (cur.1, max cur.2 r.2)
      refine ⟨e, tl, ?_, ?_⟩
      · simpa [scanMerge, hc] using heq
      · exact le_trans (le_max_left _ _) hle
    · exact ⟨cur.2, scanMerge r rest, by simp [scanMerge, hc], le_refl _⟩

/-- The scan preserves the set of covered points, given that the input is
sorted by start. -/
theorem scanMerge_covers : ∀ (pending : List Range) (cur : Range),
    List.Pairwise startLE (cur :: pending) →
    ∀ x, inRanges (scanMerge cur pending) x ↔ inRanges (cur :: pending) x := by
  intro pending
  induction pending with
  | nil => intro cur _ x; simp [scanMerge]
  | cons r rest ih =>
    intro cur hsorted x
    have hcur_r : cur.1 ≤ r.1 := (List.pairwise_cons.mp hsorted).1 r (by simp)
    have htail : List.Pairwise startLE (r :: rest) :=
      (List.pairwise_cons.mp hsorted).2
    by_cases hc : r.1 ≤ cur.2
    · have hsorted' : List.Pairwise startLE ((cur.1, max cur.2 r.2) :: rest) := by
        refine List.pairwise_cons.mpr ⟨?_, (List.pairwise_cons.mp htail).2⟩
        intro r' hr'
        exact le_trans hcur_r ((List.pairwise_cons.mp htail).1 r' hr')
      have hrw : scanMerge cur (r :: rest) = scanMerge (cur.1, max cur.2 r.2) rest := by
        simp [scanMerge, hc]
      rw [hrw, ih (cur.1, max cur.2 r.2) hsorted']
      simp only [inRanges_cons]
      constructor
      · rintro (⟨h1, h2⟩ | h)
        · rcases lt_or_le x cur.2 with hx | hx
          · exact Or.inl ⟨h1, hx⟩
          · refine Or.inr (Or.inl ⟨?_, ?_⟩)
            · exact le_trans hc hx
            · rcases max_cases cur.2 r.2 with ⟨hm, _⟩ | ⟨hm, _⟩ <;> rw [hm] at h2
              · exact absurd h2 (not_lt.mpr hx)
              · exact h2
        · exact Or.inr (Or.inr h)
      · rintro (⟨h1, h2⟩ | ⟨h1, h2⟩ | h)
        · exact Or.inl ⟨h1, lt_of_lt_of_le h2 (le_max_left _ _)⟩
        · exact Or.inl ⟨le_trans hcur_r h1, lt_of_lt_of_le h2 (le_max_right _ _)⟩
        · exact Or.inr h
    · have hrw : scanMerge cur (r :: rest) = cur :: scanMerge r rest := by
        simp [scanMerge, hc]
      rw [hrw]
      simp only [inRanges_cons, ih r htail x]

/-- The scan's output is a strict gap chain: each emitted range ends strictly
before the next one starts (given start-sorted input). -/
theorem scanMerge_chain : ∀ (pending : List Range) (cur : Range),
    List.Pairwise startLE (cur :: pending) →
    (scanMerge cur pending).Chain' (fun a b => a.2 < b.1) := by
  intro pending
  induction pending with
  | nil => intro cur _; simp [scanMerge]
  | cons r rest ih =>
    intro cur hsorted
    have hcur_r : cur.1 ≤ r.1 := (List.pairwise_cons.mp hsorted).1 r (by simp)
    have htail : List.Pairwise startLE (r :: rest) :=
      (List.pairwise_cons.mp hsorted).2
    by_cases hc : r.1 ≤ cur.2
    · have hsorted' : List.Pairwise startLE ((cur.1, max cur.2 r.2) :: rest) := by
        refine List.pairwise_cons.mpr ⟨?_, (List.pairwise_cons.mp htail).2⟩
        intro r' hr'
        exact le_trans hcur_r ((List.pairwise_cons.mp htail).1 r' hr')
      have hrw : scanMerge cur (r :: rest) = scanMerge (cur.1, max cur.2 r.2) rest := by
        simp [scanMerge, hc]
      rw [hrw]
      exact ih _ hsorted'
    · have hrw : scanMerge cur (r :: rest) = cur :: scanMerge r rest := by
        simp [scanMerge, hc]
      rw [hrw]
      refine List.chain'_cons'.mpr ⟨?_, ih r htail⟩
      intro y hy
      obtain ⟨e, tl, heq, _⟩ := scanMerge_head rest r
      rw [heq] at hy
      simp only [List.head?_cons, Option.mem_def, Option.some.injEq] at hy
      subst hy
      exact lt_of_not_le hc

/-- The scan preserves validity of ranges (`start ≤ end`). -/
theorem scanMerge_le : ∀ (pending : List Range) (cur : Range),
    cur.1 ≤ cur.2 → (∀ r ∈ pending, r.1 ≤ r.2) →
    ∀ r ∈ scanMerge cur pending, r.1 ≤ r.2 := by
  intro pending
  induction pending with
  | nil =>
    intro cur hcur _ r hr
    simp only [scanMerge, List.mem_singleton] at hr
    subst hr; exact hcur
  | cons r rest ih =>
    intro cur hcur hall r' hr'
    by_cases hc : r.1 ≤ cur.2
    · rw [show scanMerge cur (r :: rest) = scanMerge (cur.1, max cur.2 r.2) rest by
        simp [scanMerge, hc]] at hr'
      refine ih (cur.1, max cur.2 r.2) ?_ (fun s hs => hall s (by simp [hs])) r' hr'
      exact le_trans hcur (le_max_left _ _)
    · rw [show scanMerge cur (r :: rest) = cur :: scanMerge r rest by
        simp [scanMerge, hc]] at hr'
      rcases List.mem_cons.mp hr' with rfl | hm
      · exact hcur
      · exact ih r (hall r (by simp)) (fun s hs => hall s (by simp [hs])) r' hm

/-- The scan preserves bounds `0 ≤ start < end ≤ d`. -/
theorem scanMerge_bounds (d : ℚ) : ∀ (pending : List Range) (cur : Range),
    (0 ≤ cur.1 ∧ cur.1 < cur.2 ∧ cur.2 ≤ d) →
    (∀ r ∈ pending, 0 ≤ r.1 ∧ r.1 < r.2 ∧ r.2 ≤ d) →
    ∀ r ∈ scanMerge cur pending, 0 ≤ r.1 ∧ r.1 < r.2 ∧ r.2 ≤ d := by
  intro pending
  induction pending with
  | nil =>
    intro cur hcur _ r hr
    simp only [scanMerge, List.mem_singleton] at hr
    subst hr; exact hcur
  | cons r rest ih =>
    intro cur hcur hall r' hr'
    by_cases hc : r.1 ≤ cur.2
    · rw [show scanMerge cur (r :: rest) = scanMerge (cur.1, max cur.2 r.2) rest by
        simp [scanMerge, hc]] at hr'
      refine ih (cur.1, max cur.2 r.2) ?_ (fun s hs => hall s (by simp [hs])) r' hr'
      refine ⟨hcur.1, lt_of_lt_of_le hcur.2.1 (le_max_left _ _), ?_⟩
      exact max_le hcur.2.2 (hall r (by simp)).2.2
    · rw [show scanMerge cur (r :: rest) = cur :: scanMerge r rest by
        simp [scanMerge, hc]] at hr'
      rcases List.mem_cons.mp hr' with rfl | hm
      · exact hcur
      · exact ih r (hall r (by simp)) (fun s hs => hall s (by simp [hs])) r' hm

/-- A strict gap chain of valid ranges is pairwise: every earlier range ends
strictly before every later range starts. -/
theorem chain_gap_pairwise : ∀ {l : List Range},
    (∀ r ∈ l, r.1 ≤ r.2) → l.Chain' (fun a b => a.2 < b.1) →
    l.Pairwise (fun a b => a.2 < b.1) := by
  intro l
  induction l with
  | nil => intro _ _; simp
  | cons a t ih =>
    intro hv hc
    obtain ⟨hhead, hct⟩ := List.chain'_cons'.mp hc
    have hpt := ih (fun r hr => hv r (by simp [hr])) hct
    refine List.pairwise_cons.mpr ⟨?_, hpt⟩
    intro c hcmem
    cases t with
    | nil => simp at hcmem
    | cons b t' =>
      have hab : a.2 < b.1 := hhead b (by simp)
      rcases List.mem_cons.mp hcmem with rfl | hcm
      · exact hab
      · have hbc : b.2 < c.1 := (List.pairwise_cons.mp hpt).1 c hcm
        have hb : b.1 ≤ b.2 := hv b (by simp)
        linarith

/-- `_merge_ranges` on the empty list returns the empty list. -/
theorem mergeRanges_nil : mergeRanges [] = [] := rfl

/-- `_merge_ranges` output covers exactly the points covered by the input. -/
theorem mergeRanges_covers (rs : List Range) (x : ℚ) :
    inRanges (mergeRanges rs) x ↔ inRanges rs x := by
  have hperm := List.perm_insertionSort startLE rs
  have hsorted := List.sorted_insertionSort startLE rs
  unfold mergeRanges
  cases h : List.insertionSort startLE rs with
  | nil =>
    rw [h] at hperm
    have : rs = [] := hperm.symm.eq_nil
    simp [this, inRanges_nil]
  | cons r rest =>
    rw [h] at hperm hsorted
    rw [scanMerge_covers rest r hsorted x]
    exact inRanges_perm hperm x

/-- `_merge_ranges` output is a strict gap chain (sorted, pairwise disjoint,
with no two output ranges adjacent or overlapping). -/
theorem mergeRanges_chain (rs : List Range) :
    (mergeRanges rs).Chain' (fun a b => a.2 < b.1) := by
  have hsorted := List.sorted_insertionSort startLE rs
  unfold mergeRanges
  cases h : List.insertionSort startLE rs with
  | nil => simp
  | cons r rest =>
    rw [h] at hsorted
    exact scanMerge_chain rest r hsorted

/-- `_merge_ranges` preserves validity of ranges. -/
theorem mergeRanges_le (rs : List Range) (hv : ∀ r ∈ rs, r.1 ≤ r.2) :
    ∀ r ∈ mergeRanges rs, r.1 ≤ r.2 := by
  have hperm := List.perm_insertionSort startLE rs
  unfold mergeRanges
  cases h : List.insertionSort startLE rs with
  | nil => simp
  | cons r rest =>
    rw [h] at hperm
    have hall : ∀ s ∈ r :: rest, s.1 ≤ s.2 := fun s hs => hv s (hperm.subset hs)
    exact scanMerge_le rest r (hall r (by simp)) fun s hs => hall s (by simp [hs])

/-- `_merge_ranges` preserves the bounds `0 ≤ start < end ≤ d`. -/
theorem mergeRanges_bounds (d : ℚ) (rs : List Range)
    (hv : ∀ r ∈ rs, 0 ≤ r.1 ∧ r.1 < r.2 ∧ r.2 ≤ d) :
    ∀ r ∈ mergeRanges rs, 0 ≤ r.1 ∧ r.1 < r.2 ∧ r.2 ≤ d := by
  have hperm := List.perm_insertionSort startLE rs
  unfold mergeRanges
  cases h : List.insertionSort startLE rs with
  | nil => simp
  | cons r rest =>
    rw [h] at hperm
    have hall : ∀ s ∈ r :: rest, 0 ≤ s.1 ∧ s.1 < s.2 ∧ s.2 ≤ d :=
      fun s hs => hv s (hperm.subset hs)
    exact scanMerge_bounds d rest r (hall r (by simp)) fun s hs => hall s (by simp [hs])

/-- `_merge_ranges` never returns the empty list on non-empty input. -/
theorem mergeRanges_ne_nil (rs : List Range) (h : rs ≠ []) : mergeRanges rs ≠ [] := by
  have hperm := List.perm_insertionSort startLE rs
  unfold mergeRanges
  cases heq : List.insertionSort startLE rs with
  | nil =>
    rw [heq] at hperm
    exact absurd hperm.symm.eq_nil h
  | cons r rest =>
    obtain ⟨e, tl, hs, _⟩ := scanMerge_head rest r
    simp [hs]

/-! ### Facts about `complementScan` -/

/-- Every range produced by the keep-range scan starts at or after the
cursor, is non-degenerate, and ends at or before the duration. -/
theorem complementScan_bounds (d : ℚ) : ∀ (trims : List Range) (cursor : ℚ),
    (∀ r ∈ trims, r.1 < r.2 ∧ r.2 ≤ d) →
    ∀ r ∈ complementScan d cursor trims, cursor ≤ r.1 ∧ r.1 < r.2 ∧ r.2 ≤ d := by
  intro trims
  induction trims with
  | nil =>
    intro cursor _ r hr
    simp only [complementScan] at hr
    by_cases hc : cursor < d
    · simp only [if_pos hc, List.mem_singleton] at hr
      subst hr
      exact ⟨le_refl _, hc, le_refl _⟩
    · simp [if_neg hc] at hr
  | cons t rest ih =>
    intro cursor hall r hr
    simp only [complementScan, List.mem_append] at hr
    rcases hr with hr | hr
    · by_cases hc : cursor < t.1
      · simp only [if_pos hc, List.mem_singleton] at hr
        subst hr
        exact ⟨le_refl _, hc, le_trans (le_of_lt (hall t (by simp)).1) (hall t (by simp)).2⟩
      · simp [if_neg hc] at hr
    · have := ih (max cursor t.2) (fun s hs => hall s (by simp [hs])) r hr
      exact ⟨le_trans (le_max_left _ _) this.1, this.2⟩

/-- The keep-range scan produces a strict gap chain, given pairwise-disjoint
sorted trims that all start at or after the cursor. -/
theorem complementScan_chain (d : ℚ) : ∀ (trims : List Range) (cursor : ℚ),
    (∀ r ∈ trims, r.1 < r.2 ∧ r.2 ≤ d) →
    (∀ r ∈ trims, cursor ≤ r.1) →
    List.Pairwise (fun a b => a.2 < b.1) trims →
    (complementScan d cursor trims).Chain' (fun a b => a.2 < b.1) := by
  intro trims
  induction trims with
  | nil =>
    intro cursor _ _ _
    simp only [complementScan]
    by_cases hc : cursor < d <;> simp [hc]
  | cons t rest ih =>
    intro cursor hall hstarts hpw
    have hrec : (complementScan d (max cursor t.2) rest).Chain' (fun a b => a.2 < b.1) := by
      refine ih (max cursor t.2) (fun s hs => hall s (by simp [hs])) ?_
        (List.pairwise_cons.mp hpw).2
      intro s hs
      exact max_le (hstarts s (by simp [hs])) (le_of_lt ((List.pairwise_cons.mp hpw).1 s hs))
    simp only [complementScan]
    by_cases hc : cursor < t.1
    · simp only [if_pos hc, List.singleton_append]
      refine List.chain'_cons'.mpr ⟨?_, hrec⟩
      intro y hy
      have hymem : y ∈ complementScan d (max cursor t.2) rest :=
        List.mem_of_mem_head? hy
      have hb := complementScan_bounds d rest (max cursor t.2)
        (fun s hs => hall s (by simp [hs])) y hymem
      calc t.1 < t.2 := (hall t (by simp)).1
        _ ≤ max cursor t.2 := le_max_right _ _
        _ ≤ y.1 := hb.1
    · simpa [if_neg hc] using hrec

/-- Point partition: a point at or after the cursor and before the duration
lies in the keep ranges iff it lies in none of the trims. -/
theorem complementScan_cover (d : ℚ) : ∀ (trims : List Range) (cursor : ℚ),
    (∀ r ∈ trims, r.1 < r.2 ∧ r.2 ≤ d) →
    (∀ r ∈ trims, cursor ≤ r.1) →
    List.Pairwise (fun a b => a.2 < b.1) trims →
    ∀ x, cursor ≤ x → x < d →
    (inRanges (complementScan d cursor trims) x ↔ ¬ inRanges trims x) := by
  intro trims
  induction trims with
  | nil =>
    intro cursor _ _ _ x hcx hxd
    have hc : cursor < d := lt_of_le_of_lt hcx hxd
    simp only [complementScan, if_pos hc]
    simp [inRanges, hcx, hxd]
  | cons t rest ih =>
    intro cursor hall hstarts hpw x hcx hxd
    have ht := hall t (by simp)
    have hstart_t : cursor ≤ t.1 := hstarts t (by simp)
    have hrest_bounds : ∀ s ∈ rest, s.1 < s.2 ∧ s.2 ≤ d := fun s hs => hall s (by simp [hs])
    have hrest_starts : ∀ s ∈ rest, max cursor t.2 ≤ s.1 := by
      intro s hs
      exact max_le (hstarts s (by simp [hs])) (le_of_lt ((List.pairwise_cons.mp hpw).1 s hs))
    simp only [complementScan, inRanges_append, inRanges_cons]
    rcases lt_trichotomy x t.1 with hx | hx | hx
    · -- before the trim: the point is in the gap piece
      have hc : cursor < t.1 := lt_of_le_of_lt hcx hx
      have hnotrec : ¬ inRanges (complementScan d (max cursor t.2) rest) x := by
        intro hmem
        obtain ⟨r, hr, hr1, _⟩ := hmem
        have := (complementScan_bounds d rest (max cursor t.2) hrest_bounds r hr).1
        have : t.2 ≤ x := le_trans (le_trans (le_max_right _ _) this) hr1
        exact absurd (lt_trans hx ht.1) (not_lt.mpr this)
      have hnotrest : ¬ inRanges rest x := by
        intro hmem
        obtain ⟨r, hr, hr1, _⟩ := hmem
        have := hrest_starts r hr
        have : t.2 ≤ x := le_trans (le_trans (le_max_right _ _) this) hr1
        exact absurd (lt_trans hx ht.1) (not_lt.mpr this)
      simp [if_pos hc, inRanges_cons, inRanges_nil, hcx, hx, hnotrec, hnotrest,
        not_lt.mpr (le_of_lt hx)]
    · -- at the trim start: the point is removed
      subst hx
      have hnotrec : ¬ inRanges (complementScan d (max cursor t.2) rest) t.1 := by
        intro hmem
        obtain ⟨r, hr, hr1, _⟩ := hmem
        have := (complementScan_bounds d rest (max cursor t.2) hrest_bounds r hr).1
        have : t.2 ≤ t.1 := le_trans (le_trans (le_max_right _ _) this) hr1
        exact absurd ht.1 (not_lt.mpr this)
      have hgap : ¬ inRanges (if cursor < t.1 then [(cursor, t.1)] else []) t.1 := by
        by_cases hc : cursor < t.1 <;>
          simp [hc, inRanges_cons, inRanges_nil]
      simp only [hgap, hnotrec, or_self, false_iff, not_not]
      exact Or.inl ⟨le_refl _, ht.1⟩
    · -- after the trim start
      rcases lt_or_le x t.2 with hx2 | hx2
      · -- inside the trim: removed, and in no keep piece
        have hnotrec : ¬ inRanges (complementScan d (max cursor t.2) rest) x := by
          intro hmem
          obtain ⟨r, hr, hr1, _⟩ := hmem
          have := (complementScan_bounds d rest (max cursor t.2) hrest_bounds r hr).1
          have : t.2 ≤ x := le_trans (le_trans (le_max_right _ _) this) hr1
          exact absurd hx2 (not_lt.mpr this)
        have hgap : ¬ inRanges (if cursor < t.1 then [(cursor, t.1)] else []) x := by
          by_cases hc : cursor < t.1 <;>
            simp [hc, inRanges_cons, inRanges_nil, not_lt.mpr (le_of_lt hx)]
        simp [hgap, hnotrec, le_of_lt hx, hx2]
      · -- past the trim: defer to the recursive call
        have hrec := ih (max cursor t.2) hrest_bounds hrest_starts
          (List.pairwise_cons.mp hpw).2 x (max_le hcx hx2) hxd
        have hgap : ¬ inRanges (if cursor < t.1 then [(cursor, t.1)] else []) x := by
          by_cases hc : cursor < t.1 <;>
            simp [hc, inRanges_cons, inRanges_nil, not_lt.mpr (le_of_lt hx)]
        simp [hgap, hrec, not_lt.mpr hx2, not_lt.mpr (le_of_lt hx)]

/-! ### Claim theorems for the range algebra -/

/-- C2: for every input list of valid time ranges (not necessarily sorted or
disjoint), `_merge_ranges` returns a list sorted by start whose ranges are
pairwise disjoint with a strict gap between consecutive ranges (so no run of
adjacent or overlapping inputs remains split and touching inputs are merged),
every output range is valid, the output covers exactly the points covered by
the input (so overlapping or touching inputs are merged, with nothing lost or
added), and the empty input yields the empty output. -/
theorem mergeRanges_spec (rs : List Range) (hv : ∀ r ∈ rs, r.1 ≤ r.2) :
    (mergeRanges rs).Pairwise (fun a b => a.1 ≤ b.1)
    ∧ (mergeRanges rs).Pairwise (fun a b => a.2 < b.1)
    ∧ (∀ r ∈ mergeRanges rs, r.1 ≤ r.2)
    ∧ (∀ x, inRanges (mergeRanges rs) x ↔ inRanges rs x)
    ∧ mergeRanges [] = [] := by
  have hle := mergeRanges_le rs hv
  have hchain := mergeRanges_chain rs
  have hpw := chain_gap_pairwise hle hchain
  refine ⟨?_, hpw, hle, mergeRanges_covers rs, mergeRanges_nil⟩
  refine hpw.imp_of_mem ?_
  intro a b ha _ hab
  exact le_of_lt (lt_of_le_of_lt (hle a ha) hab)

theorem mergeRanges_spec_witness :
    (∀ r ∈ [((1:ℚ),3),((2:ℚ),5)], r.1 ≤ r.2)
    ∧ ((mergeRanges [((1:ℚ),3),((2:ℚ),5)]).Pairwise (fun a b => a.1 ≤ b.1)
      ∧ (mergeRanges [((1:ℚ),3),((2:ℚ),5)]).Pairwise (fun a b => a.2 < b.1)
      ∧ (∀ r ∈ mergeRanges [((1:ℚ),3),((2:ℚ),5)], r.1 ≤ r.2)
      ∧ (∀ x, inRanges (mergeRanges [((1:ℚ),3),((2:ℚ),5)]) x
          ↔ inRanges [((1:ℚ),3),((2:ℚ),5)] x)
      ∧ mergeRanges [] = []) :=
  ⟨by decide, mergeRanges_spec _ (by decide)⟩

/-- C3: complementing the merged removal ranges against the duration yields
keep ranges that are sorted by start and pairwise disjoint (strict gap chain
of valid ranges), and every point of `[0, duration)` lies in the keep ranges
iff it lies in none of the merged ranges — so the two unions partition the
timeline, each point covered exactly once (ranges are half-open `[start,
end)`; consecutive keep and removed ranges share only endpoints).  The
concrete cases: `[(1,3),(2,5)]` merges to `[(1,5)]` and complements against
duration `10` to `[(0,1),(5,10)]`, and an empty remove list complements to
`[(0, duration)]`. -/
theorem keepComplement_spec (d : ℚ) (R : List Range) (hd : 0 < d)
    (hv : ∀ r ∈ R, 0 ≤ r.1 ∧ r.1 < r.2 ∧ r.2 ≤ d) :
    (complementScan d 0 (mergeRanges R)).Pairwise (fun a b => a.1 ≤ b.1)
    ∧ (complementScan d 0 (mergeRanges R)).Pairwise (fun a b => a.2 < b.1)
    ∧ (∀ r ∈ complementScan d 0 (mergeRanges R), 0 ≤ r.1 ∧ r.1 < r.2 ∧ r.2 ≤ d)
    ∧ (∀ x, 0 ≤ x → x < d →
        (inRanges (complementScan d 0 (mergeRanges R)) x ↔ ¬ inRanges (mergeRanges R) x))
    ∧ mergeRanges [((1:ℚ),3),((2:ℚ),5)] = [((1:ℚ),5)]
    ∧ complementScan 10 0 [((1:ℚ),5)] = [((0:ℚ),1),((5:ℚ),10)]
    ∧ complementScan d 0 (mergeRanges []) = [(0, d)] := by
  have hb := mergeRanges_bounds d R hv
  have hle : ∀ r ∈ mergeRanges R, r.1 ≤ r.2 := fun r hr => le_of_lt (hb r hr).2.1
  have hchain := mergeRanges_chain R
  have hpw := chain_gap_pairwise hle hchain
  have hbounds2 : ∀ r ∈ mergeRanges R, r.1 < r.2 ∧ r.2 ≤ d := fun r hr =>
    ⟨(hb r hr).2.1, (hb r hr).2.2⟩
  have hstarts : ∀ r ∈ mergeRanges R, (0:ℚ) ≤ r.1 := fun r hr => (hb r hr).1
  have hkchain := complementScan_chain d (mergeRanges R) 0 hbounds2 hstarts hpw
  have hkbounds := complementScan_bounds d (mergeRanges R) 0 hbounds2
  have hkle : ∀ r ∈ complementScan d 0 (mergeRanges R), r.1 ≤ r.2 := fun r hr =>
    le_of_lt (hkbounds r hr).2.1
  have hkpw := chain_gap_pairwise hkle hkchain
  refine ⟨?_, hkpw, hkbounds, ?_, by decide, by decide, ?_⟩
  · refine hkpw.imp_of_mem ?_
    intro a b ha _ hab
    exact le_of_lt (lt_of_le_of_lt (hkle a ha) hab)
  · intro x h0 hxd
    exact complementScan_cover d (mergeRanges R) 0 hbounds2 hstarts hpw x h0 hxd
  · rw [mergeRanges_nil]
    simp [complementScan, hd]

theorem keepComplement_spec_witness :
    (0:ℚ) < 10
    ∧ (∀ r ∈ [((1:ℚ),3),((2:ℚ),5)], 0 ≤ r.1 ∧ r.1 < r.2 ∧ r.2 ≤ 10)
    ∧ ((complementScan 10 0 (mergeRanges [((1:ℚ),3),((2:ℚ),5)])).Pairwise
        (fun a b => a.1 ≤ b.1)
      ∧ (complementScan 10 0 (mergeRanges [((1:ℚ),3),((2:ℚ),5)])).Pairwise
        (fun a b => a.2 < b.1)
      ∧ (∀ r ∈ complementScan 10 0 (mergeRanges [((1:ℚ),3),((2:ℚ),5)]),
          0 ≤ r.1 ∧ r.1 < r.2 ∧ r.2 ≤ 10)
      ∧ (∀ x, 0 ≤ x → x < 10 →
          (inRanges (complementScan 10 0 (mergeRanges [((1:ℚ),3),((2:ℚ),5)])) x
            ↔ ¬ inRanges (mergeRanges [((1:ℚ),3),((2:ℚ),5)]) x))
      ∧ mergeRanges [((1:ℚ),3),((2:ℚ),5)] = [((1:ℚ),5)]
      ∧ complementScan 10 0 [((1:ℚ),5)] = [((0:ℚ),1),((5:ℚ),10)]
      ∧ complementScan 10 0 (mergeRanges []) = [(0, 10)]) :=
  ⟨by norm_num, by decide, keepComplement_spec 10 _ (by norm_num) (by decide)⟩

/-- C4: whenever the validated remove-ranges merge to a cover of the whole
timeline `[0, duration)`, the entire-removal guard of `export_from_file`
fires, raising the user-facing validation error "Cannot remove the entire
video range." before any plan is built — and it fires for every such input,
because the merged list is then necessarily a single range `[s, e)` with
`s ≤ 0` and `e ≥ duration`, which is exactly what the guard tests. -/
theorem entireRemoval_spec (d : ℚ) (R : List Range) (hd : 0 < d)
    (hv : ∀ r ∈ R, 0 ≤ r.1 ∧ r.1 < r.2 ∧ r.2 ≤ d)
    (hcover : ∀ x, 0 ≤ x → x < d → inRanges (mergeRanges R) x) :
    entireRemovalRejected d (mergeRanges R) = true := by
  have hb := mergeRanges_bounds d R hv
  have hle : ∀ r ∈ mergeRanges R, r.1 ≤ r.2 := fun r hr => le_of_lt (hb r hr).2.1
  have hpw := chain_gap_pairwise hle (mergeRanges_chain R)
  obtain ⟨r0, hr0, hr01, hr02⟩ := hcover 0 (le_refl 0) hd
  rcases hM : mergeRanges R with _ | ⟨m, rest⟩
  · rw [hM] at hr0; simp at hr0
  · rw [hM] at hb hpw hr0
    have hm1 : m.1 ≤ 0 := by
      rcases List.mem_cons.mp hr0 with rfl | hmem
      · exact hr01
      · have hgap : m.2 < r0.1 := (List.pairwise_cons.mp hpw).1 r0 hmem
        have : m.1 < m.2 := (hb m (by simp)).2.1
        linarith
    have hrest : rest = [] := by
      rcases rest with _ | ⟨b, rest'⟩
      · rfl
      · exfalso
        have hm2b : m.2 < b.1 := (List.pairwise_cons.mp hpw).1 b (by simp)
        have hmb : 0 ≤ m.2 := le_of_lt (lt_of_le_of_lt (hb m (by simp)).1 (hb m (by simp)).2.1)
        have hbd : b.1 < d := lt_of_lt_of_le (hb b (by simp)).2.1 (hb b (by simp)).2.2
        obtain ⟨r, hr, h1, h2⟩ := hcover m.2 hmb (lt_trans hm2b hbd)
        rw [hM] at hr
        rcases List.mem_cons.mp hr with rfl | hmem
        · exact absurd h2 (lt_irrefl _)
        · have : m.2 < r.1 := (List.pairwise_cons.mp hpw).1 r hmem
          linarith
    subst hrest
    have hm2 : d ≤ m.2 := by
      by_contra hlt
      push_neg at hlt
      have hmb : 0 ≤ m.2 := le_of_lt (lt_of_le_of_lt (hb m (by simp)).1 (hb m (by simp)).2.1)
      obtain ⟨r, hr, h1, h2⟩ := hcover m.2 hmb hlt
      rw [hM] at hr
      rcases List.mem_cons.mp hr with rfl | hmem
      · exact absurd h2 (lt_irrefl _)
      · simp at hmem
    simp [entireRemovalRejected, List.headI, List.getLastI, hm1, hm2]

theorem entireRemoval_spec_witness :
    (0:ℚ) < 10
    ∧ (∀ r ∈ [((0:ℚ),10)], 0 ≤ r.1 ∧ r.1 < r.2 ∧ r.2 ≤ 10)
    ∧ (∀ x : ℚ, 0 ≤ x → x < 10 → inRanges (mergeRanges [((0:ℚ),10)]) x)
    ∧ entireRemovalRejected 10 (mergeRanges [((0:ℚ),10)]) = true := by
  have hcover : ∀ x : ℚ, 0 ≤ x → x < 10 → inRanges (mergeRanges [((0:ℚ),10)]) x := by
    intro x h0 hx
    have hM : mergeRanges [((0:ℚ),10)] = [((0:ℚ),10)] := by decide
    rw [hM]
    exact ⟨((0:ℚ),10), by simp, by simpa using h0, by simpa using hx⟩
  exact ⟨by norm_num, by decide, hcover,
    entireRemoval_spec 10 [((0:ℚ),10)] (by norm_num) (by decide) hcover⟩

/-! ### Claim theorems for the speed-segment resolver -/

/-- C1: for duration 10, no trims (so keep ranges `[(0,10)]`) and speed
ranges `[(2,4,2.0)]`, `_build_speed_segments` returns exactly
`[(0,2,1.0), (2,4,2.0), (4,10,1.0)]` in this order: a rate-1 filler before
the speed range, the rate segment, and a rate-1 trailing filler. -/
theorem speedOverlay_example :
    keepRangesOf 10 [] = [((0:ℚ), 10)]
    ∧ buildSpeedSegments 10 [] [((2:ℚ), 4, 2)] =
      Except.ok [((0:ℚ), 2, 1), ((2:ℚ), 4, 2), ((4:ℚ), 10, 1)] := by
  refine ⟨by decide, ?_⟩
  norm_num [buildSpeedSegments, keepRangesOf, sortSpeeds, List.insertionSort,
    List.orderedInsert, hasOverlap, rawSegmentsOf, resolveKeep, segLong,
    List.filter, segStartLE]

/-- C5: when the keep ranges are non-empty (which holds on every input that
passes the endpoint's entire-removal guard), `_build_speed_segments` raises
the caller error "Overlapping speed ranges are not supported." exactly when,
after sorting by start, some speed range starts strictly before the previous
one's end — before any segment is emitted (the function returns the error
instead of a segment list).  Touching speed ranges (next start equal to
previous end) pass the check, and no silent reconciliation occurs: with no
overlap the function returns normally.  The claim's example
`[(0,5,2.0),(3,8,3.0)]` trips the check, while the touching pair
`[(0,5,2.0),(5,8,3.0)]` does not. -/
theorem overlappingSpeed_spec (d : ℚ) (trims : List Range) (speeds : List Segment)
    (hkeep : keepRangesOf d trims ≠ []) :
    (hasOverlap (sortSpeeds speeds) = true →
      buildSpeedSegments d trims speeds =
        Except.error "Overlapping speed ranges are not supported.")
    ∧ (hasOverlap (sortSpeeds speeds) = false →
      ∃ segs, buildSpeedSegments d trims speeds = Except.ok segs)
    ∧ hasOverlap (sortSpeeds [((0:ℚ),5,2),((3:ℚ),8,3)]) = true
    ∧ hasOverlap (sortSpeeds [((0:ℚ),5,2),((5:ℚ),8,3)]) = false := by
  refine ⟨?_, ?_, by decide, by decide⟩
  · intro hov
    have hne : speeds ≠ [] := by
      intro h
      subst h
      simp [sortSpeeds, List.insertionSort, hasOverlap] at hov
    simp [buildSpeedSegments, hkeep, hne, hov]
  · intro hov
    by_cases hsp : speeds = []
    · subst hsp
      exact ⟨(keepRangesOf d trims).map (fun k => (k.1, k.2, 1)),
        by simp [buildSpeedSegments, hkeep]⟩
    · exact ⟨(rawSegmentsOf (keepRangesOf d trims) (sortSpeeds speeds)).filter segLong,
        by simp [buildSpeedSegments, hkeep, hsp, hov]⟩

theorem overlappingSpeed_spec_witness :
    keepRangesOf 10 [] ≠ [] ∧
      buildSpeedSegments 10 [] [((0:ℚ),5,2),((3:ℚ),8,3)] =
        Except.error "Overlapping speed ranges are not supported." :=
  ⟨by decide, (overlappingSpeed_spec 10 [] [((0:ℚ),5,2),((3:ℚ),8,3)]
    (by decide)).1 (by decide)⟩

/-- C8 counterexample: the claim says every emitted segment of length at
least `0.01` is kept, but the filter keeps only lengths strictly greater
than `0.01`.  With duration 10, no trims and speed ranges `[(0, 0.01, 2)]`,
the resolver emits `[(0, 0.01, 2), (0.01, 10, 1)]`; the rate segment
`(0, 0.01, 2)` has length exactly `0.01` yet is dropped from the result. -/
theorem postFilter_boundary_cex :
    rawSegments 10 [] [((0:ℚ), 1/100, 2)] =
      [((0:ℚ), (1:ℚ)/100, 2), ((1:ℚ)/100, 10, 1)]
    ∧ buildSpeedSegments 10 [] [((0:ℚ), 1/100, 2)] =
      Except.ok [((1:ℚ)/100, 10, 1)]
    ∧ ((0:ℚ), (1:ℚ)/100, (2:ℚ)) ∉ [((1:ℚ)/100, (10:ℚ), (1:ℚ))] := by
  refine ⟨?_, ?_, by norm_num⟩
  · norm_num [rawSegments, keepRangesOf, sortSpeeds, List.insertionSort,
      List.orderedInsert, rawSegmentsOf, resolveKeep, segStartLE]
  · norm_num [buildSpeedSegments, keepRangesOf, sortSpeeds, List.insertionSort,
      List.orderedInsert, hasOverlap, rawSegmentsOf, resolveKeep, segLong,
      List.filter, segStartLE]

/-- C8 (amended): on the emitting path (non-empty keep ranges, non-empty
speed ranges, no overlap), the returned list is exactly the emitted segment
list filtered by `length > 0.01`: every emitted segment of length strictly
greater than `0.01` appears, in emission order and with its rate unchanged
(the result is a sublist of the emitted list, elements untouched), and every
emitted segment of length at most `0.01` — including exactly `0.01` — is
removed; no renormalization across dropped segments occurs. -/
theorem postFilter_spec (d : ℚ) (trims : List Range) (speeds : List Segment)
    (hkeep : keepRangesOf d trims ≠ []) (hsp : speeds ≠ [])
    (hov : hasOverlap (sortSpeeds speeds) = false) :
    buildSpeedSegments d trims speeds =
      Except.ok ((rawSegments d trims speeds).filter segLong)
    ∧ List.Sublist ((rawSegments d trims speeds).filter segLong)
        (rawSegments d trims speeds)
    ∧ (∀ s, s ∈ (rawSegments d trims speeds).filter segLong ↔
        s ∈ rawSegments d trims speeds ∧ (1:ℚ)/100 < s.2.1 - s.1) := by
  refine ⟨?_, List.filter_sublist _, ?_⟩
  · simp [buildSpeedSegments, rawSegments, hkeep, hsp, hov]
  · intro s
    simp [List.mem_filter, segLong]

theorem postFilter_spec_witness :
    keepRangesOf 10 [] ≠ [] ∧ ([((2:ℚ), 4, 2)] : List Segment) ≠ []
    ∧ hasOverlap (sortSpeeds [((2:ℚ), 4, 2)]) = false
    ∧ buildSpeedSegments 10 [] [((2:ℚ), 4, 2)] =
        Except.ok ((rawSegments 10 [] [((2:ℚ), 4, 2)]).filter segLong) :=
  ⟨by decide, by decide, by decide,
    (postFilter_spec 10 [] [((2:ℚ), 4, 2)] (by decide) (by decide) (by decide)).1⟩

/-! ### Facts about the atempo chain -/

theorem atempoHigh_of_le {q : ℚ} (h : q ≤ 2) : atempoHigh q = ([], q) := by
  rw [atempoHigh, dif_neg (not_lt.mpr h)]

theorem atempoLow_of_ge {q : ℚ} (h : 1/2 ≤ q) : atempoLow q = ([], q) := by
  rw [atempoLow, dif_neg]
  intro hc
  exact absurd hc.2 (not_lt.mpr h)

/-- The product of the emitted high factors and the final remaining value
reconstructs the input: the first loop only divides out the factors it
emits. -/
theorem atempoHigh_prod (q : ℚ) : (atempoHigh q).1.prod * (atempoHigh q).2 = q := by
  induction q using atempoHigh.induct with
  | case1 q h ih =>
    rw [atempoHigh, dif_pos h]
    simp only [List.prod_cons]
    rw [mul_assoc, ih]
    ring
  | case2 q h =>
    rw [atempoHigh, dif_neg h]
    simp

theorem atempoLow_prod (q : ℚ) : (atempoLow q).1.prod * (atempoLow q).2 = q := by
  induction q using atempoLow.induct with
  | case1 q h ih =>
    rw [atempoLow, dif_pos h]
    simp only [List.prod_cons]
    rw [mul_assoc, ih]
    ring
  | case2 q h =>
    rw [atempoLow, dif_neg h]
    simp

theorem atempoHigh_mem (q : ℚ) : ∀ f ∈ (atempoHigh q).1, f = 2 := by
  induction q using atempoHigh.induct with
  | case1 q h ih =>
    rw [atempoHigh, dif_pos h]
    intro f hf
    rcases List.mem_cons.mp hf with rfl | hm
    · rfl
    · exact ih f hm
  | case2 q h =>
    rw [atempoHigh, dif_neg h]
    simp

theorem atempoLow_mem (q : ℚ) : ∀ f ∈ (atempoLow q).1, f = 1/2 := by
  induction q using atempoLow.induct with
  | case1 q h ih =>
    rw [atempoLow, dif_pos h]
    intro f hf
    rcases List.mem_cons.mp hf with rfl | hm
    · rfl
    · exact ih f hm
  | case2 q h =>
    rw [atempoLow, dif_neg h]
    simp

/-- The first loop stops at or below the stage maximum. -/
theorem atempoHigh_snd_le (q : ℚ) : (atempoHigh q).2 ≤ 2 := by
  induction q using atempoHigh.induct with
  | case1 q h ih => rw [atempoHigh, dif_pos h]; exact ih
  | case2 q h => rw [atempoHigh, dif_neg h]; exact not_lt.mp h

theorem atempoHigh_snd_pos : ∀ q : ℚ, 0 < q → 0 < (atempoHigh q).2 := by
  intro q
  induction q using atempoHigh.induct with
  | case1 q h ih =>
    intro hq
    rw [atempoHigh, dif_pos h]
    exact ih (by positivity)
  | case2 q h =>
    intro hq
    rw [atempoHigh, dif_neg h]
    exact hq

/-- On positive input the second loop stops at or above the stage minimum. -/
theorem atempoLow_snd_ge : ∀ q : ℚ, 0 < q → 1/2 ≤ (atempoLow q).2 := by
  intro q
  induction q using atempoLow.induct with
  | case1 q h ih =>
    intro _
    rw [atempoLow, dif_pos h]
    exact ih (by positivity)
  | case2 q h =>
    intro hq
    rw [atempoLow, dif_neg h]
    rcases not_and_or.mp h with h' | h'
    · exact absurd hq h'
    · exact not_lt.mp h'

/-- The second loop never pushes the remainder above the stage maximum when
starting at or below it. -/
theorem atempoLow_snd_le : ∀ q : ℚ, q ≤ 2 → (atempoLow q).2 ≤ 2 := by
  intro q
  induction q using atempoLow.induct with
  | case1 q h ih =>
    intro _
    rw [atempoLow, dif_pos h]
    refine ih ?_
    have hdiv : q / (1/2) = 2 * q := by ring
    rw [hdiv]
    linarith [h.2]
  | case2 q h =>
    intro hq
    rw [atempoLow, dif_neg h]
    exact hq

theorem buildAtempoFactors_ne_nil (speed : ℚ) : buildAtempoFactors speed ≠ [] := by
  simp [buildAtempoFactors]

/-- Concrete evaluation: `decompose(4.0) = [2.0, 2.0]`. -/
theorem buildAtempo_four : buildAtempoFactors 4 = [2, 2] := by
  have h1 : atempoHigh 4 = ([2], 2) := by
    rw [atempoHigh, dif_pos (by norm_num : (2:ℚ) < 4)]
    have hdiv : (4:ℚ) / 2 = 2 := by norm_num
    rw [hdiv, atempoHigh_of_le (le_refl 2)]
  have h2 : atempoLow 2 = ([], 2) := atempoLow_of_ge (by norm_num)
  simp only [buildAtempoFactors, h1, h2]
  rfl

/-- Concrete evaluation: `decompose(0.25) = [0.5, 0.5]`. -/
theorem buildAtempo_quarter : buildAtempoFactors (1/4) = [1/2, 1/2] := by
  have h1 : atempoLow (1/4) = ([1/2], 1/2) := by
    rw [atempoLow, dif_pos (by norm_num : (0:ℚ) < 1/4 ∧ (1:ℚ)/4 < 1/2)]
    have hdiv : (1:ℚ)/4 / (1/2) = 1/2 := by norm_num
    rw [hdiv, atempoLow_of_ge (le_refl _)]
  have h0 : atempoHigh (1/4) = ([], 1/4) := atempoHigh_of_le (by norm_num)
  simp only [buildAtempoFactors, h0, h1]
  rfl

/-- For every positive rate the clamp is the identity on every emitted
factor, so the clamped product reconstructs the rate exactly. -/
theorem clampedFactors_prod (speed : ℚ) (h : 0 < speed) :
    (clampedAtempoFactors speed).prod = speed := by
  have hhi_le := atempoHigh_snd_le speed
  have hhi_pos := atempoHigh_snd_pos speed h
  have hlo_ge := atempoLow_snd_ge _ hhi_pos
  have hlo_le := atempoLow_snd_le _ hhi_le
  have hfix : ∀ f ∈ buildAtempoFactors speed, clampStage f = f := by
    intro f hf
    simp only [buildAtempoFactors, List.mem_append, List.mem_singleton] at hf
    have hb : 1/2 ≤ f ∧ f ≤ 2 := by
      rcases hf with (hf | hf) | rfl
      · rw [atempoHigh_mem speed f hf]; norm_num
      · rw [atempoLow_mem _ f hf]; norm_num
      · exact ⟨hlo_ge, hlo_le⟩
    rw [clampStage, min_eq_right hb.2, max_eq_right hb.1]
  have hmap : (buildAtempoFactors speed).map clampStage = buildAtempoFactors speed := by
    calc (buildAtempoFactors speed).map clampStage
        = (buildAtempoFactors speed).map id := List.map_congr_left hfix
      _ = buildAtempoFactors speed := List.map_id _
  rw [clampedAtempoFactors, hmap]
  simp only [buildAtempoFactors, List.prod_append, List.prod_cons, List.prod_nil]
  rw [mul_one, mul_assoc, atempoLow_prod, atempoHigh_prod]

/-- C6: for every rate > 0 the tempo decomposition of `_build_atempo_chain`
is non-empty, every factor rendered into the chain lies in `[0.5, 2.0]`
after clamping, `decompose(4.0) = [2.0, 2.0]`, `decompose(0.25) =
[0.5, 0.5]`, and for rates that are pure powers of the stage bound `2.0` the
product of the (clamped) factors equals the requested rate exactly — in
particular within any tolerance. -/
theorem atempoChain_spec (rate : ℚ) (h : 0 < rate) :
    buildAtempoFactors rate ≠ []
    ∧ (∀ f ∈ clampedAtempoFactors rate, 1/2 ≤ f ∧ f ≤ 2)
    ∧ buildAtempoFactors 4 = [2, 2]
    ∧ buildAtempoFactors (1/4) = [1/2, 1/2]
    ∧ (∀ k : ℤ, rate = 2 ^ k → (clampedAtempoFactors rate).prod = rate) := by
  refine ⟨buildAtempoFactors_ne_nil rate, ?_, buildAtempo_four, buildAtempo_quarter, ?_⟩
  · intro f hf
    simp only [clampedAtempoFactors, List.mem_map] at hf
    obtain ⟨g, _, rfl⟩ := hf
    exact ⟨le_max_left _ _, max_le (by norm_num) (min_le_left _ _)⟩
  · intro k _
    exact clampedFactors_prod rate h

theorem atempoChain_spec_witness : (clampedAtempoFactors 4).prod = 4 :=
  (atempoChain_spec 4 (by norm_num)).2.2.2.2 2 (by norm_num)

/-- C10 (implicit claim): in `render_segments_with_speed` every segment's
rate is clamped to `speed_value = max(0.25, rate)` and both the video
timestamp divisor and the audio atempo chain are built from this clamped
value; hence for any requested rate below `0.25` the rendered rate is
`0.25`, not the requested rate (the video divisor is `0.25`, the audio chain
factors multiply to `0.25`). -/
theorem renderRateClamp_spec (seg : Segment) :
    (1/4 : ℚ) ≤ (renderSegmentParams seg).1
    ∧ (renderSegmentParams seg).2 = clampedAtempoFactors (renderSegmentParams seg).1
    ∧ (seg.2.2 < 1/4 →
      (renderSegmentParams seg).1 = 1/4
      ∧ ((renderSegmentParams seg).2).prod = 1/4
      ∧ (renderSegmentParams seg).1 ≠ seg.2.2) := by
  refine ⟨le_max_left _ _, rfl, ?_⟩
  intro hlt
  have heff : effectiveRate seg.2.2 = 1/4 := max_eq_left (le_of_lt hlt)
  refine ⟨by simp [renderSegmentParams, heff], ?_, ?_⟩
  · simp only [renderSegmentParams, heff]
    exact clampedFactors_prod (1/4) (by norm_num)
  · simp only [renderSegmentParams, heff]
    exact ne_of_gt hlt

theorem renderRateClamp_spec_witness :
    (renderSegmentParams ((0:ℚ), 1, 1/8)).1 = 1/4
    ∧ ((renderSegmentParams ((0:ℚ), 1, 1/8)).2).prod = 1/4
    ∧ (renderSegmentParams ((0:ℚ), 1, 1/8)).1 ≠ ((0:ℚ), (1:ℚ), (1:ℚ)/8).2.2 :=
  (renderRateClamp_spec ((0:ℚ), 1, 1/8)).2.2 (by norm_num)

/-! ### Claim theorems for the sprite-sheet partition -/

/-- C7 counterexample: the claim computes `totalFrames = floor(duration /
interval) + 1` from the submitted interval, but `generate_sprite_sheets`
first clamps the interval to `max(0.1, interval_sec)`.  The public validator
only requires `interval_sec > 0`, so `interval = 0.05` is accepted, yet with
`duration = 1` the code produces `totalFrames = 11` while the claimed
formula gives `21`. -/
theorem spriteIntervalClamp_cex :
    (spritePartition 1 (1/20) 2 2).1 = 11 ∧ (⌊(1:ℚ) / (1/20)⌋ + 1 : ℤ) = 21 := by
  constructor
  · have hmax : max ((1:ℚ)/10) (1/20) = 1/10 := max_eq_left (by norm_num)
    have hdiv : (1:ℚ) / ((1:ℚ)/10) = 10 := by norm_num
    have hfloor : ⌊(10:ℚ)⌋ = 10 := by exact_mod_cast Int.floor_intCast (10:ℤ)
    simp only [spritePartition, hmax, hdiv, hfloor]
    rfl
  · have hdiv : (1:ℚ) / ((1:ℚ)/20) = 20 := by norm_num
    have hfloor : ⌊(20:ℚ)⌋ = 20 := by exact_mod_cast Int.floor_intCast (20:ℤ)
    rw [hdiv, hfloor]
    norm_num

/-- C7 (amended): for every duration > 0 and validated parameters
(interval > 0, columns > 0, rows > 0), `generate_sprite_sheets` computes
`totalFrames = floor(duration / max(0.1, interval)) + 1` (the minimum-1
clamp never binds), `framesPerSheet = columns × rows`, and `sheetCount =
ceil(totalFrames / framesPerSheet)` (again at least 1 automatically); in
particular `partition(duration=5, interval=1.0, columns=2, rows=2)` yields
`totalFrames = 6`, `framesPerSheet = 4`, `sheetCount = 2`. -/
theorem spritePartition_spec (d i : ℚ) (c r : ℤ)
    (hd : 0 < d) (hi : 0 < i) (hc : 0 < c) (hr : 0 < r) :
    (spritePartition d i c r).1 = ⌊d / max (1/10) i⌋ + 1
    ∧ (spritePartition d i c r).2.1 = c * r
    ∧ (spritePartition d i c r).2.2 =
        ⌈((⌊d / max (1/10) i⌋ + 1 : ℤ) : ℚ) / ((c * r : ℤ) : ℚ)⌉
    ∧ spritePartition 5 1 2 2 = (6, 4, 2) := by
  have hi' : (0:ℚ) < max (1/10) i := lt_of_lt_of_le (by norm_num) (le_max_left _ _)
  have hfloor : (0:ℤ) ≤ ⌊d / max (1/10) i⌋ :=
    Int.floor_nonneg.mpr (div_nonneg (le_of_lt hd) (le_of_lt hi'))
  have hc1 : (1:ℤ) ≤ c := by omega
  have hr1 : (1:ℤ) ≤ r := by omega
  have hmaxc : max 1 c = c := max_eq_right hc1
  have hmaxr : max 1 r = r := max_eq_right hr1
  have htf : max 1 (⌊d / max (1/10) i⌋ + 1) = ⌊d / max (1/10) i⌋ + 1 :=
    max_eq_right (by omega)
  have hcrq : (0:ℚ) < ((c * r : ℤ) : ℚ) := by
    exact_mod_cast mul_pos hc hr
  have htfq : (0:ℚ) < ((⌊d / max (1/10) i⌋ + 1 : ℤ) : ℚ) := by
    exact_mod_cast (by omega : (0:ℤ) < ⌊d / max (1/10) i⌋ + 1)
  have hceil : (1:ℤ) ≤ ⌈((⌊d / max (1/10) i⌋ + 1 : ℤ) : ℚ) / ((c * r : ℤ) : ℚ)⌉ := by
    have := Int.ceil_pos.mpr (div_pos htfq hcrq)
    omega
  refine ⟨?_, ?_, ?_, ?_⟩
  · simp only [spritePartition]
    rw [htf]
  · simp only [spritePartition]
    rw [hmaxc, hmaxr]
  · simp only [spritePartition]
    rw [hmaxc, hmaxr, htf, max_eq_right hceil]
  · have hmax : max ((1:ℚ)/10) 1 = 1 := max_eq_right (by norm_num)
    have hdiv : (5:ℚ) / 1 = 5 := by norm_num
    have hfloor5 : ⌊(5:ℚ)⌋ = 5 := by exact_mod_cast Int.floor_intCast (5:ℤ)
    have hceil2 : ⌈((3:ℚ)) / ((2:ℚ))⌉ = 2 := by
      rw [Int.ceil_eq_iff]
      norm_num
    simp only [spritePartition, hmax, hdiv, hfloor5]
    norm_num [hceil2]

theorem spritePartition_spec_witness : spritePartition 5 1 2 2 = (6, 4, 2) :=
  (spritePartition_spec 5 1 2 2 (by norm_num) (by norm_num) (by norm_num)
    (by norm_num)).2.2.2

/-! ### Claim theorems for boundary range validation -/

/-- `validate_trim` succeeds exactly on ranges satisfying
`0 ≤ start < end ≤ duration` (non-negativity of the end is implied). -/
theorem validate_trim_ok (s e dur : ℚ) :
    validate_trim s e dur = Except.ok () ↔ (0 ≤ s ∧ 0 ≤ e ∧ s < e ∧ e ≤ dur) := by
  unfold validate_trim
  split_ifs with h1 h2 h3
  · constructor
    · intro h; exact absurd h (by simp)
    · rintro ⟨hs, he, _, _⟩
      rcases h1 with h | h <;> linarith
  · constructor
    · intro h; exact absurd h (by simp)
    · rintro ⟨_, _, hlt, _⟩; linarith
  · constructor
    · intro h; exact absurd h (by simp)
    · rintro ⟨_, _, _, hle⟩; linarith
  · push_neg at h1 h2 h3
    exact ⟨fun _ => ⟨h1.1, h1.2, h2, h3⟩, fun _ => rfl⟩

/-- C9 counterexample: the claim says every submitted range violating
`0 ≤ start < end ≤ duration` is rejected, but the endpoint first swaps the
endpoints (`start = min, end = max`): the submitted trim range
`start = 5, end = 2` (violating `start < end`) is silently repaired and
accepted as `(2, 5)`. -/
theorem reversedRange_accepted_cex :
    processTrimRange 5 2 10 = Except.ok ((2:ℚ), 5) := by
  have hmin : min (5:ℚ) 2 = 2 := min_eq_right (by norm_num)
  have hmax : max (5:ℚ) 2 = 5 := max_eq_left (by norm_num)
  have hok : validate_trim (2:ℚ) 5 10 = Except.ok () :=
    (validate_trim_ok 2 5 10).mpr (by norm_num)
  simp [processTrimRange, hmin, hmax, hok, Except.map]

/-- C9 (amended): the endpoint first normalizes each submitted trim or speed
range by swapping its endpoints (`start = min, end = max`) — a reversed
range is silently repaired, not rejected — and then every normalized range
violating `0 ≤ start < end ≤ duration` (negative endpoint, empty range, or
end past the duration) is rejected with a validation error before any range
algebra runs, as is any speed ≤ 0; every accepted range satisfies the
invariant. -/
theorem rangeValidation_spec (a b v dur : ℚ) :
    ((∃ p, processTrimRange a b dur = Except.ok p) ↔
      (0 ≤ min a b ∧ min a b < max a b ∧ max a b ≤ dur))
    ∧ (∀ p, processTrimRange a b dur = Except.ok p →
        p = (min a b, max a b) ∧ 0 ≤ p.1 ∧ p.1 < p.2 ∧ p.2 ≤ dur)
    ∧ ((∃ s, processSpeedRange a b v dur = Except.ok s) ↔
      (0 ≤ min a b ∧ min a b < max a b ∧ max a b ≤ dur ∧ 0 < v))
    ∧ (∀ s, processSpeedRange a b v dur = Except.ok s →
        s = (min a b, max a b, v) ∧ 0 ≤ s.1 ∧ s.1 < s.2.1 ∧ s.2.1 ≤ dur ∧ 0 < s.2.2) := by
  rcases hvt : validate_trim (min a b) (max a b) dur with msg | u
  · have hnot : ¬(0 ≤ min a b ∧ 0 ≤ max a b ∧ min a b < max a b ∧ max a b ≤ dur) := by
      rw [← validate_trim_ok, hvt]
      simp
    refine ⟨?_, ?_, ?_, ?_⟩
    · constructor
      · rintro ⟨p, hp⟩
        simp [processTrimRange, hvt, Except.map] at hp
      · rintro ⟨h0, hlt, hle⟩
        exact absurd ⟨h0, le_trans h0 (le_of_lt hlt), hlt, hle⟩ hnot
    · intro p hp
      simp [processTrimRange, hvt, Except.map] at hp
    · constructor
      · rintro ⟨s, hs⟩
        simp [processSpeedRange, hvt, Except.bind] at hs
      · rintro ⟨h0, hlt, hle, _⟩
        exact absurd ⟨h0, le_trans h0 (le_of_lt hlt), hlt, hle⟩ hnot
    · intro s hs
      simp [processSpeedRange, hvt, Except.bind] at hs
  · cases u
    obtain ⟨h0, h0e, hlt, hle⟩ := (validate_trim_ok _ _ _).mp hvt
    refine ⟨?_, ?_, ?_, ?_⟩
    · exact ⟨fun _ => ⟨h0, hlt, hle⟩,
        fun _ => ⟨(min a b, max a b), by simp [processTrimRange, hvt, Except.map]⟩⟩
    · intro p hp
      simp only [processTrimRange, hvt, Except.map, Except.ok.injEq] at hp
      subst hp
      exact ⟨rfl, h0, hlt, hle⟩
    · constructor
      · rintro ⟨s, hs⟩
        simp only [processSpeedRange, hvt, Except.bind] at hs
        by_cases hv : v ≤ 0
        · simp [hv] at hs
        · exact ⟨h0, hlt, hle, lt_of_not_le hv⟩
      · rintro ⟨_, _, _, hv⟩
        refine ⟨(min a b, max a b, v), ?_⟩
        simp [processSpeedRange, hvt, Except.bind, not_le.mpr hv]
    · intro s hs
      simp only [processSpeedRange, hvt, Except.bind] at hs
      by_cases hv : v ≤ 0
      · simp [hv] at hs
      · simp only [if_neg hv, Except.ok.injEq] at hs
        subst hs
        exact ⟨rfl, h0, hlt, hle, lt_of_not_le hv⟩

theorem rangeValidation_spec_witness :
    ∃ p, processTrimRange 2 5 10 = Except.ok p :=
  (rangeValidation_spec 2 5 1 10).1.mpr
    (by norm_num [min_def, max_def])

end VideoEditor
